import Mathlib

/-!
Verification development for the graphql-ops-proxy repository.

The definitions below are a shallow embedding of the repository's core:
`src/proxy.ts` (operation registry, OpsDef.resolve, _requestRemote, request),
`src/node.ts` (withCache and its default cacheKeySerialize),
`src/hasura.ts` (getHasuraHeaders) and the framework-adapter parsing helpers
(fromGetRequest).  JavaScript objects (header records, query-parameter maps,
the registry Map) are modelled as association lists with unique keys; JSON
values are modelled by the inductive `J`; the external libraries
safe-stable-stringify, JSON.parse and async-cache-dedupe are modelled from
their documented behaviour and the spec (sorted-key JSON serialization, a
deduplicating TTL cache), as noted at each definition.
-/

namespace GProxy

/-- JS object field access (`obj[key]`), on the association-list model. -/
def aget {α : Type} (k : String) : List (String × α) → Option α
  | [] => none
  | p :: r => if p.1 = k then some p.2 else aget k r

/-- JS object field update (`obj[key] = v` / spread overwrite): replaces the
value in place when the key exists (JS objects keep the original insertion
position of an overwritten key), otherwise appends. -/
def aset {α : Type} (k : String) (v : α) : List (String × α) → List (String × α)
  | [] => [(k, v)]
  | p :: r => if p.1 = k then (p.1, v) :: r else p :: aset k v r

/-- JS object key deletion (`delete obj[key]`).  JS objects have unique keys,
so removing every occurrence from the association list is the faithful model. -/
def adel {α : Type} (k : String) : List (String × α) → List (String × α)
  | [] => []
  | p :: r => if p.1 = k then adel k r else p :: adel k r

/-- The unique-keys invariant every JS object satisfies. -/
def NodupKeys {α : Type} (l : List (String × α)) : Prop :=
  (l.map Prod.fst).Nodup

theorem aget_aset_self {α : Type} (k : String) (v : α) (l : List (String × α)) :
    aget k (aset k v l) = some v := by
  induction l with
  | nil => simp [aget, aset]
  | cons p r ih =>
    by_cases h : p.1 = k
    · simp [aget, aset, h]
    · simp [aget, aset, h, ih]

theorem aget_aset_ne {α : Type} {k k2 : String} (h : k ≠ k2) (v : α)
    (l : List (String × α)) : aget k (aset k2 v l) = aget k l := by
  have h2 : k2 ≠ k := Ne.symm h
  induction l with
  | nil => simp [aget, aset, h2]
  | cons p r ih =>
    by_cases hp : p.1 = k2
    · subst hp
      simp [aget, aset, h2]
    · by_cases hk : p.1 = k
      · simp [aget, aset, hp, hk, h]
      · simp [aget, aset, hp, hk, ih]

theorem aget_adel_self {α : Type} (k : String) (l : List (String × α)) :
    aget k (adel k l) = none := by
  induction l with
  | nil => simp [aget, adel]
  | cons p r ih =>
    by_cases h : p.1 = k
    · simp [adel, h, ih]
    · simp [adel, aget, h, ih]

theorem aget_adel_ne {α : Type} {k k2 : String} (h : k ≠ k2) (l : List (String × α)) :
    aget k (adel k2 l) = aget k l := by
  have h2 : k2 ≠ k := Ne.symm h
  induction l with
  | nil => simp [adel]
  | cons p r ih =>
    by_cases hp : p.1 = k2
    · subst hp
      simp [adel, aget, h2, ih]
    · by_cases hk : p.1 = k
      · simp [adel, aget, hp, hk, h]
      · simp [adel, aget, hp, hk, ih]

theorem aget_append {α : Type} (k : String) (l1 l2 : List (String × α)) :
    aget k (l1 ++ l2) = ((aget k l1).rec (aget k l2) fun v => some v) := by
  induction l1 with
  | nil => simp [aget]
  | cons p r ih =>
    by_cases h : p.1 = k
    · simp [aget, h]
    · simp [aget, h, ih]

theorem aget_none_of_keys {α : Type} {k : String} {l : List (String × α)}
    (h : ∀ p ∈ l, p.1 ≠ k) : aget k l = none := by
  induction l with
  | nil => rfl
  | cons p r ih =>
    have hp := h p (by simp)
    simp only [aget, if_neg hp]
    exact ih fun q hq => h q (by simp [hq])

theorem aget_map_val {α β : Type} (k : String) (f : α → β) (l : List (String × α)) :
    aget k (l.map fun p => (p.1, f p.2)) = (aget k l).map f := by
  induction l with
  | nil => rfl
  | cons p r ih =>
    by_cases h : p.1 = k
    · simp [aget, h]
    · simp [aget, h, ih]

theorem aget_filter_key {α : Type} {q : String → Bool} {k : String}
    (hq : q k = true) (l : List (String × α)) :
    aget k (l.filter fun p => q p.1) = aget k l := by
  induction l with
  | nil => rfl
  | cons p r ih =>
    by_cases h : p.1 = k
    · subst h
      simp [aget, List.filter_cons, hq]
    · by_cases hqp : q p.1 = true
      · simp [aget, List.filter_cons, hqp, h, ih]
      · simp [aget, List.filter_cons, hqp, h, ih]

/-- Looking a key up is invariant under permutation of an association list
with unique keys (used to relate two sorted-key serializations). -/
theorem aget_eq_of_perm {α : Type} {l1 l2 : List (String × α)}
    (h : List.Perm l1 l2) (nd : NodupKeys l1) (k : String) :
    aget k l1 = aget k l2 := by
  induction h with
  | nil => rfl
  | cons p hperm ih =>
    by_cases hp : p.1 = k
    · simp [aget, hp]
    · have nd2 : NodupKeys _ := (List.nodup_cons.mp nd).2
      simp [aget, hp, ih nd2]
  | swap p1 p2 l =>
    have hne : p2.1 ≠ p1.1 := by
      have := (List.nodup_cons.mp nd).1
      intro hh
      exact this (by simp [hh])
    by_cases h1 : p1.1 = k
    · have h2 : p2.1 ≠ k := fun hh => hne (hh.trans h1.symm)
      simp [aget, h1, h2]
    · by_cases h2 : p2.1 = k
      · simp [aget, h1, h2]
      · simp [aget, h1, h2]
  | trans h12 h23 ih1 ih2 =>
    have nd2 : NodupKeys _ := (List.Perm.nodup_iff (h12.map Prod.fst)).mp nd
    exact (ih1 nd).trans (ih2 nd2)

/-! ## JSON values

JSON values as they flow through the proxy (operation variables, cache-key
payloads).  Arrays and objects are mutual inductives so that every function
below is structurally recursive and hence kernel-computable.  Numbers are
modelled as integers (the repository's tests and cache keys only use integer
numbers; fractional floats are out of scope of the claims). -/

mutual

inductive J : Type where
  | null : J
  | bool (b : Bool) : J
  | num (n : Int) : J
  | str (s : String) : J
  | arr (xs : JList) : J
  | obj (fs : JFields) : J

inductive JList : Type where
  | nil : JList
  | cons (hd : J) (tl : JList) : JList

inductive JFields : Type where
  | nil : JFields
  | cons (k : String) (v : J) (tl : JFields) : JFields

end

/-- Object fields as a plain association list. -/
def toPairs : JFields → List (String × J)
  | .nil => []
  | .cons k v fs => (k, v) :: toPairs fs

def ofPairs : List (String × J) → JFields
  | [] => .nil
  | (k, v) :: l => .cons k v (ofPairs l)

theorem toPairs_ofPairs (l : List (String × J)) : toPairs (ofPairs l) = l := by
  induction l with
  | nil => rfl
  | cons p r ih => cases p; simp [ofPairs, toPairs, ih]

theorem ofPairs_inj {l1 l2 : List (String × J)} (h : ofPairs l1 = ofPairs l2) :
    l1 = l2 := by
  have := congrArg toPairs h
  rwa [toPairs_ofPairs, toPairs_ofPairs] at this

/-- The double-quote character (written by code point to keep it out of
character-literal position). -/
def dquo : Char := Char.ofNat 34

def bslash : Char := Char.ofNat 92

def lbraceC : Char := Char.ofNat 123

def rbraceC : Char := Char.ofNat 125

/-- JSON string-content escaping as JSON.stringify performs it, restricted to
the two structurally relevant escapes (quote and backslash); other characters
are emitted verbatim.  This keeps the serialization injective, which is the
property the cache key relies on. -/
def escChars : List Char → List Char
  | [] => []
  | c :: r => if c = dquo ∨ c = bslash then bslash :: c :: escChars r else c :: escChars r

/-- Decimal digits of a natural number, most significant first; the fuel is
structural (any fuel above the digit count is enough). -/
def natCharsFuel : Nat → Nat → List Char
  | 0, _ => []
  | f + 1, n => if n < 10 then [Nat.digitChar n] else natCharsFuel f (n / 10) ++ [Nat.digitChar (n % 10)]

def natChars (n : Nat) : List Char := natCharsFuel (n + 1) n

/-- JSON serialization of an integer. -/
def serInt (n : Int) : List Char :=
  if n < 0 then '-' :: natChars n.natAbs else natChars n.natAbs

mutual

/-- JSON serialization (JSON.stringify / safe-stable-stringify on values whose
object fields are already in the intended order; the stable, sorted-key
serializer is `serV` composed with `canon` below). -/
def serV : J → List Char
  | .null => "null".data
  | .bool true => "true".data
  | .bool false => "false".data
  | .num n => serInt n
  | .str s => dquo :: escChars s.data ++ [dquo]
  | .arr .nil => ['[', ']']
  | .arr (.cons x xs) => '[' :: (serV x ++ serListTail xs) ++ [']']
  | .obj .nil => [lbraceC, rbraceC]
  | .obj (.cons k v fs) =>
      lbraceC :: ((dquo :: escChars k.data ++ dquo :: ':' :: serV v) ++ serFieldsTail fs) ++ [rbraceC]
termination_by structural v => v

def serListTail : JList → List Char
  | .nil => []
  | .cons x xs => ',' :: serV x ++ serListTail xs
termination_by structural l => l

def serFieldsTail : JFields → List Char
  | .nil => []
  | .cons k v fs => ',' :: (dquo :: escChars k.data ++ dquo :: ':' :: serV v) ++ serFieldsTail fs
termination_by structural l => l

end

/-- Serialization of one object field. -/
def serField (k : String) (v : J) : List Char :=
  dquo :: escChars k.data ++ dquo :: ':' :: serV v

/-- Lexicographic order on character lists by code point, the order JS string
comparison (and hence safe-stable-stringify key sorting) uses. -/
def listLt : List Char → List Char → Bool
  | [], [] => false
  | [], _ :: _ => true
  | _ :: _, [] => false
  | a :: as, b :: bs =>
      if a.toNat < b.toNat then true
      else if b.toNat < a.toNat then false
      else listLt as bs

def strLt (s t : String) : Bool := listLt s.data t.data

/-- Sorted insertion by key; insertion before the first key that is not
smaller keeps equal keys stable. -/
def insertKV (x : String × J) : List (String × J) → List (String × J)
  | [] => [x]
  | y :: ys => if strLt y.1 x.1 then y :: insertKV x ys else x :: y :: ys

def insSortL : List (String × J) → List (String × J)
  | [] => []
  | x :: xs => insertKV x (insSortL xs)

theorem insertKV_perm (x : String × J) (l : List (String × J)) :
    List.Perm (insertKV x l) (x :: l) := by
  induction l with
  | nil => exact List.Perm.refl _
  | cons y ys ih =>
    by_cases h : strLt y.1 x.1 = true
    · simp only [insertKV, if_pos h]
      exact (List.Perm.cons y ih).trans (List.Perm.swap x y ys)
    · simp only [insertKV, if_neg h]
      exact List.Perm.refl _

theorem insSortL_perm (l : List (String × J)) : List.Perm (insSortL l) l := by
  induction l with
  | nil => exact List.Perm.refl _
  | cons x xs ih =>
    exact (insertKV_perm x (insSortL xs)).trans (List.Perm.cons x ih)

mutual

/-- Canonical form of a JSON value: every object's fields sorted by key.
`serV (canon v)` is exactly the sorted-key serialization safe-stable-stringify
produces, and two JS values are the same data (up to object key order) iff
their canonical forms are equal. -/
def canon : J → J
  | .null => .null
  | .bool b => .bool b
  | .num n => .num n
  | .str s => .str s
  | .arr xs => .arr (canonL xs)
  | .obj fs => .obj (ofPairs (insSortL (toPairs (canonF fs))))
termination_by structural v => v

def canonL : JList → JList
  | .nil => .nil
  | .cons x xs => .cons (canon x) (canonL xs)
termination_by structural l => l

def canonF : JFields → JFields
  | .nil => .nil
  | .cons k v fs => .cons k (canon v) (canonF fs)
termination_by structural l => l

end

/-- Canonicalizing the values of an association list of fields. -/
def canonPairs (l : List (String × J)) : List (String × J) :=
  l.map fun p => (p.1, canon p.2)

theorem toPairs_canonF_ofPairs (l : List (String × J)) :
    toPairs (canonF (ofPairs l)) = canonPairs l := by
  induction l with
  | nil => rfl
  | cons p r ih => cases p; simp [ofPairs, canonF, toPairs, canonPairs, ih]

theorem canon_obj_ofPairs (l : List (String × J)) :
    canon (.obj (ofPairs l)) = .obj (ofPairs (insSortL (canonPairs l))) := by
  simp [canon, toPairs_canonF_ofPairs]

/-! ## A JSON parser

A recursive-descent parser for the serialization above.  It is used (a) to
prove the serialization injective — the property the cache key needs — and
(b) as the model of JSON.parse for the GET-request adapter (the repository
feeds it `JSON.parse(variables)`). -/

/-- Parse string content up to an unescaped closing quote. -/
def parseStrAux : List Char → Option (List Char × List Char)
  | [] => none
  | c :: r =>
    if c = dquo then some ([], r)
    else if c = bslash then
      match r with
      | [] => none
      | d :: r2 => (parseStrAux r2).map fun p => (d :: p.1, p.2)
    else (parseStrAux r).map fun p => (c :: p.1, p.2)
termination_by structural l => l

/-- The longest digit prefix and the remainder. -/
def spanDigits : List Char → List Char × List Char
  | [] => ([], [])
  | c :: r =>
    if c.isDigit then
      ((spanDigits r).1.cons c, (spanDigits r).2)
    else ([], c :: r)

/-- Value of a list of decimal digits, most significant first. -/
def digitsToNat (ds : List Char) : Nat :=
  ds.foldl (fun a c => 10 * a + (c.toNat - 48)) 0

/-- Parse a JSON integer (optional minus sign, then digits). -/
def parseNum : List Char → Option (Int × List Char)
  | [] => none
  | c :: r =>
    if c = '-' then
      let p := spanDigits r
      if p.1.isEmpty then none else some (-(digitsToNat p.1 : Int), p.2)
    else
      let p := spanDigits (c :: r)
      if p.1.isEmpty then none else some ((digitsToNat p.1 : Int), p.2)

mutual

/-- Parse one JSON value; the fuel only bounds nesting and is harmless as long
as it exceeds the size of the value. -/
def parseV : Nat → List Char → Option (J × List Char)
  | 0, _ => none
  | f + 1, cs =>
    match cs with
    | [] => none
    | c :: r =>
      if c = 'n' then
        match r with
        | 'u' :: 'l' :: 'l' :: r2 => some (.null, r2)
        | _ => none
      else if c = 't' then
        match r with
        | 'r' :: 'u' :: 'e' :: r2 => some (.bool true, r2)
        | _ => none
      else if c = 'f' then
        match r with
        | 'a' :: 'l' :: 's' :: 'e' :: r2 => some (.bool false, r2)
        | _ => none
      else if c = dquo then
        (parseStrAux r).map fun p => (J.str (String.mk p.1), p.2)
      else if c = '[' then
        match r with
        | [] => none
        | d :: r2 =>
          if d = ']' then some (.arr .nil, r2)
          else
            match parseElems f (d :: r2) with
            | some (xs, rest) =>
              match rest with
              | [] => none
              | e :: r3 => if e = ']' then some (.arr xs, r3) else none
            | none => none
      else if c = lbraceC then
        match r with
        | [] => none
        | d :: r2 =>
          if d = rbraceC then some (.obj .nil, r2)
          else
            match parseFields f (d :: r2) with
            | some (fs, rest) =>
              match rest with
              | [] => none
              | e :: r3 => if e = rbraceC then some (.obj fs, r3) else none
            | none => none
      else (parseNum (c :: r)).map fun p => (J.num p.1, p.2)

/-- Parse a nonempty comma-separated list of values (the closing bracket is
left for the caller). -/
def parseElems : Nat → List Char → Option (JList × List Char)
  | 0, _ => none
  | f + 1, cs =>
    match parseV f cs with
    | some (v, rest) =>
      match rest with
      | [] => some (.cons v .nil, [])
      | d :: r2 =>
        if d = ',' then
          match parseElems f r2 with
          | some (vs, r3) => some (.cons v vs, r3)
          | none => none
        else some (.cons v .nil, d :: r2)
    | none => none

/-- Parse a nonempty comma-separated list of `"key":value` fields. -/
def parseFields : Nat → List Char → Option (JFields × List Char)
  | 0, _ => none
  | f + 1, cs =>
    match cs with
    | c :: r =>
      if c = dquo then
        match parseStrAux r with
        | some (k, r1) =>
          match r1 with
          | ':' :: r2 =>
            match parseV f r2 with
            | some (v, r3) =>
              match r3 with
              | [] => some (.cons (String.mk k) v .nil, [])
              | d :: r4 =>
                if d = ',' then
                  match parseFields f r4 with
                  | some (fs, r5) => some (.cons (String.mk k) v fs, r5)
                  | none => none
                else some (.cons (String.mk k) v .nil, d :: r4)
            | none => none
          | _ => none
        | none => none
      else none
    | [] => none

end

/-- Model of JSON.parse (on the integer-number fragment, without incidental
whitespace): parse one value consuming the whole input. -/
def jparse (s : String) : Option J :=
  match parseV (s.data.length + 1) s.data with
  | some (v, []) => some v
  | _ => none

/-! ## Serialize/parse roundtrip

`parseV` recovers a value from its serialization, hence `serV` is injective:
the core of the cache-key isolation claim. -/

def headNotDigit : List Char → Bool
  | [] => true
  | c :: _ => !c.isDigit

def headNe (a : Char) : List Char → Bool
  | [] => true
  | c :: _ => if c = a then false else true

theorem parseStrAux_cons (c : Char) (r : List Char) :
    parseStrAux (c :: r) =
      if c = dquo then some ([], r)
      else if c = bslash then
        match r with
        | [] => none
        | d :: r2 => (parseStrAux r2).map fun p => (d :: p.1, p.2)
      else (parseStrAux r).map fun p => (c :: p.1, p.2) := by
  rw [parseStrAux.eq_def]

set_option maxHeartbeats 1000000 in
theorem parseV_succ (f : Nat) (c : Char) (r : List Char) :
    parseV (f + 1) (c :: r) =
      (if c = 'n' then
        match r with
        | 'u' :: 'l' :: 'l' :: r2 => some (.null, r2)
        | _ => none
      else if c = 't' then
        match r with
        | 'r' :: 'u' :: 'e' :: r2 => some (.bool true, r2)
        | _ => none
      else if c = 'f' then
        match r with
        | 'a' :: 'l' :: 's' :: 'e' :: r2 => some (.bool false, r2)
        | _ => none
      else if c = dquo then
        (parseStrAux r).map fun p => (J.str (String.mk p.1), p.2)
      else if c = '[' then
        match r with
        | [] => none
        | d :: r2 =>
          if d = ']' then some (.arr .nil, r2)
          else
            match parseElems f (d :: r2) with
            | some (xs, rest) =>
              match rest with
              | [] => none
              | e :: r3 => if e = ']' then some (.arr xs, r3) else none
            | none => none
      else if c = lbraceC then
        match r with
        | [] => none
        | d :: r2 =>
          if d = rbraceC then some (.obj .nil, r2)
          else
            match parseFields f (d :: r2) with
            | some (fs, rest) =>
              match rest with
              | [] => none
              | e :: r3 => if e = rbraceC then some (.obj fs, r3) else none
            | none => none
      else (parseNum (c :: r)).map fun p => (J.num p.1, p.2)) := by
  rw [parseV.eq_def]

theorem parseElems_succ (f : Nat) (cs : List Char) :
    parseElems (f + 1) cs =
      (match parseV f cs with
      | some (v, rest) =>
        match rest with
        | [] => some (.cons v .nil, [])
        | d :: r2 =>
          if d = ',' then
            match parseElems f r2 with
            | some (vs, r3) => some (.cons v vs, r3)
            | none => none
          else some (.cons v .nil, d :: r2)
      | none => none) := by
  rw [parseElems.eq_def]

theorem parseFields_succ (f : Nat) (c : Char) (r : List Char) :
    parseFields (f + 1) (c :: r) =
      (if c = dquo then
        match parseStrAux r with
        | some (k, r1) =>
          match r1 with
          | ':' :: r2 =>
            match parseV f r2 with
            | some (v, r3) =>
              match r3 with
              | [] => some (.cons (String.mk k) v .nil, [])
              | d :: r4 =>
                if d = ',' then
                  match parseFields f r4 with
                  | some (fs, r5) => some (.cons (String.mk k) v fs, r5)
                  | none => none
                else some (.cons (String.mk k) v .nil, d :: r4)
            | none => none
          | _ => none
        | none => none
      else none) := by
  rw [parseFields.eq_def]

theorem parseStrAux_esc (cs : List Char) (rest : List Char) :
    parseStrAux (escChars cs ++ (dquo :: rest)) = some (cs, rest) := by
  induction cs with
  | nil =>
    rw [show escChars [] = [] from rfl, List.nil_append, parseStrAux_cons]
    simp
  | cons c r ih =>
    by_cases h : c = dquo ∨ c = bslash
    · rw [show escChars (c :: r) = bslash :: c :: escChars r from by simp [escChars, h]]
      have h1 : (bslash = dquo) = False := by decide
      rw [List.cons_append, List.cons_append, parseStrAux_cons]
      simp [h1, ih]
    · push_neg at h
      rw [show escChars (c :: r) = c :: escChars r from by simp [escChars, h.1, h.2]]
      rw [List.cons_append, parseStrAux_cons]
      simp [h.1, h.2, ih]

theorem digitChar_spec {m : Nat} (h : m < 10) :
    (Nat.digitChar m).isDigit = true ∧ (Nat.digitChar m).toNat - 48 = m := by
  interval_cases m <;> exact ⟨by decide, by decide⟩

theorem digitsToNat_append_single (l : List Char) (c : Char) :
    digitsToNat (l ++ [c]) = 10 * digitsToNat l + (c.toNat - 48) := by
  simp [digitsToNat, List.foldl_append]

theorem natCharsFuel_spec : ∀ (f n : Nat), n < 10 ^ (f + 1) →
    (∀ c ∈ natCharsFuel (f + 1) n, c.isDigit = true) ∧ natCharsFuel (f + 1) n ≠ [] ∧
      digitsToNat (natCharsFuel (f + 1) n) = n := by
  intro f
  induction f with
  | zero =>
    intro n hn
    have h10 : n < 10 := by simpa using hn
    obtain ⟨hd, hv⟩ := digitChar_spec h10
    refine ⟨?_, by simp [natCharsFuel, h10], ?_⟩
    · intro c hc
      simp [natCharsFuel, h10] at hc
      rw [hc]; exact hd
    · simp [natCharsFuel, h10, digitsToNat]
      omega
  | succ g ih =>
    intro n hn
    by_cases h10 : n < 10
    · obtain ⟨hd, hv⟩ := digitChar_spec h10
      refine ⟨?_, by simp [natCharsFuel, h10], ?_⟩
      · intro c hc
        simp [natCharsFuel, h10] at hc
        rw [hc]; exact hd
      · simp [natCharsFuel, h10, digitsToNat]
        omega
    · have hdiv : n / 10 < 10 ^ (g + 1) := by
        rw [Nat.div_lt_iff_lt_mul (by norm_num)]
        calc n < 10 ^ (g + 1 + 1) := hn
          _ = 10 ^ (g + 1) * 10 := by ring
      obtain ⟨ihd, ihne, ihv⟩ := ih (n / 10) hdiv
      obtain ⟨hd2, hv2⟩ := digitChar_spec (Nat.mod_lt n (by norm_num) : n % 10 < 10)
      have heq : natCharsFuel (g + 1 + 1) n =
          natCharsFuel (g + 1) (n / 10) ++ [Nat.digitChar (n % 10)] := by
        simp [natCharsFuel, h10]
      refine ⟨?_, by simp [heq], ?_⟩
      · intro c hc
        rw [heq] at hc
        rcases List.mem_append.mp hc with hc2 | hc2
        · exact ihd c hc2
        · simp at hc2
          rw [hc2]; exact hd2
      · rw [heq, digitsToNat_append_single, ihv, hv2]
        omega

theorem natChars_spec (n : Nat) :
    (∀ c ∈ natChars n, c.isDigit = true) ∧ natChars n ≠ [] ∧
      digitsToNat (natChars n) = n := by
  have hlt : n < 10 ^ (n + 1) := by
    calc n < 10 ^ n := Nat.lt_pow_self (by norm_num) n
      _ ≤ 10 ^ (n + 1) := Nat.pow_le_pow_right (by norm_num) (Nat.le_succ n)
  exact natCharsFuel_spec n n hlt

theorem spanDigits_append {ds rest : List Char} (hd : ∀ c ∈ ds, c.isDigit = true)
    (hr : headNotDigit rest = true) : spanDigits (ds ++ rest) = (ds, rest) := by
  induction ds with
  | nil =>
    cases rest with
    | nil => rfl
    | cons c r =>
      have : c.isDigit = false := by simpa [headNotDigit] using hr
      simp [spanDigits, this]
  | cons c cs ih =>
    have hc : c.isDigit = true := hd c (by simp)
    have ihh := ih fun d hdm => hd d (by simp [hdm])
    simp [spanDigits, hc, ihh]

theorem isDigit_ne_minus {c : Char} (h : c.isDigit = true) : (c = Char.ofNat 45) = False := by
  simp only [eq_iff_iff, iff_false]
  intro hh
  rw [hh] at h
  exact absurd h (by decide)

theorem parseNum_serInt (n : Int) {rest : List Char} (hr : headNotDigit rest = true) :
    parseNum (serInt n ++ rest) = some (n, rest) := by
  obtain ⟨hd, hne, hv⟩ := natChars_spec n.natAbs
  have hspan := spanDigits_append hd hr
  by_cases hneg : n < 0
  · have hme : (natChars n.natAbs).isEmpty = false := by
      cases h : natChars n.natAbs with
      | nil => exact absurd h hne
      | cons a b => rfl
    simp only [serInt, if_pos hneg, List.cons_append, parseNum, if_pos rfl]
    rw [hspan]
    simp only [hme, Bool.false_eq_true, if_false, hv, Option.some.injEq, Prod.mk.injEq]
    rw [Int.ofNat_natAbs_of_nonpos (le_of_lt hneg)]
    simp
  · cases h : natChars n.natAbs with
    | nil => exact absurd h hne
    | cons a tl =>
      have ha : a.isDigit = true := hd a (by simp [h])
      have hnm : (a = '-') = False := by
        have := isDigit_ne_minus ha
        simpa using this
      have hme : (natChars n.natAbs).isEmpty = false := by rw [h]; rfl
      simp only [serInt, if_neg hneg, h, List.cons_append, parseNum, hnm, if_false]
      rw [← List.cons_append, ← h, hspan]
      simp [hme, hv]
      omega

theorem headNe_cons {a d : Char} {r : List Char} (h : headNe a (d :: r) = true) :
    (d = a) = False := by
  by_cases hd : d = a
  · rw [headNe, if_pos hd] at h
    exact absurd h (by simp)
  · simp [hd]

theorem headNotDigit_cons {d : Char} {r : List Char} (h : headNotDigit (d :: r) = true) :
    d.isDigit = false := by
  simpa [headNotDigit] using h

theorem notKey_of_isDigit {c : Char} (h : c.isDigit = true) :
    (c = 'n') = False ∧ (c = 't') = False ∧ (c = 'f') = False ∧ (c = dquo) = False ∧
      (c = '[') = False ∧ (c = lbraceC) = False ∧ (c = ']') = False ∧ (c = ',') = False ∧
      (c = rbraceC) = False ∧ (c = ':') = False := by
  refine ⟨?_, ?_, ?_, ?_, ?_, ?_, ?_, ?_, ?_, ?_⟩ <;>
    · simp only [eq_iff_iff, iff_false]
      intro hh
      rw [hh] at h
      exact absurd h (by decide)

/-- The first character of a serialized integer, with the branch facts the
parser needs. -/
theorem serInt_head (n : Int) : ∃ c tl, serInt n = c :: tl ∧
    (c = 'n') = False ∧ (c = 't') = False ∧ (c = 'f') = False ∧ (c = dquo) = False ∧
      (c = '[') = False ∧ (c = lbraceC) = False ∧ (c = ']') = False ∧ (c = ',') = False ∧
      (c = rbraceC) = False ∧ (c = ':') = False := by
  obtain ⟨hd, hne, hv⟩ := natChars_spec n.natAbs
  by_cases hneg : n < 0
  · exact ⟨'-', natChars n.natAbs, by simp [serInt, hneg], by decide, by decide, by decide,
      by decide, by decide, by decide, by decide, by decide, by decide, by decide⟩
  · cases h : natChars n.natAbs with
    | nil => exact absurd h hne
    | cons a tl =>
      have ha : a.isDigit = true := hd a (by simp [h])
      obtain ⟨h1, h2, h3, h4, h5, h6, h7, h8, h9, h10⟩ := notKey_of_isDigit ha
      exact ⟨a, tl, by simp [serInt, hneg, h], h1, h2, h3, h4, h5, h6, h7, h8, h9, h10⟩

/-- The first character of any serialized value is never a structural
delimiter, so the parser correctly treats it as the start of a new value. -/
theorem serV_head (v : J) : ∃ c tl, serV v = c :: tl ∧
    (c = ']') = False ∧ (c = ',') = False ∧ (c = rbraceC) = False ∧ (c = ':') = False := by
  cases v with
  | null => exact ⟨'n', _, rfl, by decide, by decide, by decide, by decide⟩
  | bool b =>
    cases b with
    | true => exact ⟨'t', _, rfl, by decide, by decide, by decide, by decide⟩
    | false => exact ⟨'f', _, rfl, by decide, by decide, by decide, by decide⟩
  | num n =>
    obtain ⟨c, tl, hser, _, _, _, _, _, _, h7, h8, h9, h10⟩ := serInt_head n
    exact ⟨c, tl, by rw [show serV (J.num n) = serInt n from rfl, hser], h7, h8, h9, h10⟩
  | str s => exact ⟨dquo, _, rfl, by decide, by decide, by decide, by decide⟩
  | arr xs =>
    cases xs with
    | nil => exact ⟨'[', _, rfl, by decide, by decide, by decide, by decide⟩
    | cons x tl => exact ⟨'[', _, rfl, by decide, by decide, by decide, by decide⟩
  | obj fs =>
    cases fs with
    | nil => exact ⟨lbraceC, _, rfl, by decide, by decide, by decide, by decide⟩
    | cons k v2 tl => exact ⟨lbraceC, _, rfl, by decide, by decide, by decide, by decide⟩

theorem parseFields_step (f : Nat) (kcs : List Char) (r2 : List Char) :
    parseFields (f + 1) (dquo :: (escChars kcs ++ (dquo :: ':' :: r2))) =
      (match parseV f r2 with
      | some (v, r3) =>
        match r3 with
        | [] => some (.cons (String.mk kcs) v .nil, [])
        | d :: r4 =>
          if d = ',' then
            match parseFields f r4 with
            | some (fs2, r5) => some (.cons (String.mk kcs) v fs2, r5)
            | none => none
          else some (.cons (String.mk kcs) v .nil, d :: r4)
      | none => none) := by
  rw [parseFields_succ]
  simp only [eq_self_iff_true, if_true]
  rw [show escChars kcs ++ (dquo :: ':' :: r2) = escChars kcs ++ (dquo :: (':' :: r2)) from rfl,
    parseStrAux_esc]
  rfl

mutual

/-- Parsing recovers a serialized value (the remainder must not begin with a
digit, which every call site guarantees). -/
theorem parseV_serV : ∀ (v : J) (f : Nat) (rest : List Char), sizeOf v < f →
    headNotDigit rest = true → parseV f (serV v ++ rest) = some (v, rest)
  | v, 0, _, hf, _ => absurd hf (by omega)
  | .null, f + 1, rest, _, _ => by
    rw [show serV J.null ++ rest = 'n' :: 'u' :: 'l' :: 'l' :: rest from rfl, parseV_succ]
    simp
  | .bool true, f + 1, rest, _, _ => by
    rw [show serV (J.bool true) ++ rest = 't' :: 'r' :: 'u' :: 'e' :: rest from rfl, parseV_succ]
    simp
  | .bool false, f + 1, rest, _, _ => by
    rw [show serV (J.bool false) ++ rest = 'f' :: 'a' :: 'l' :: 's' :: 'e' :: rest from rfl,
      parseV_succ]
    simp
  | .num n, f + 1, rest, _, hr => by
    obtain ⟨c, tl, hser, h1, h2, h3, h4, h5, h6, _, _, _, _⟩ := serInt_head n
    have hnum := parseNum_serInt n hr
    rw [hser] at hnum
    rw [show serV (J.num n) = serInt n from rfl, hser, List.cons_append, parseV_succ]
    simp only [h1, h2, h3, h4, h5, h6, if_false]
    rw [← List.cons_append, hnum]
    rfl
  | .str s, f + 1, rest, _, _ => by
    have h1 : (dquo = 'n') = False := by decide
    have h2 : (dquo = 't') = False := by decide
    have h3 : (dquo = 'f') = False := by decide
    show parseV (f + 1) ((dquo :: escChars s.data ++ [dquo]) ++ rest) = _
    simp only [List.cons_append, List.append_assoc, List.singleton_append]
    rw [parseV_succ]
    simp only [h1, h2, h3, if_false, if_pos rfl, parseStrAux_esc]
    rfl
  | .arr .nil, f + 1, rest, _, _ => by
    have h1 : ('[' = 'n') = False := by decide
    have h2 : ('[' = 't') = False := by decide
    have h3 : ('[' = 'f') = False := by decide
    have h4 : ('[' = dquo) = False := by decide
    rw [show serV (J.arr JList.nil) ++ rest = '[' :: ']' :: rest from rfl, parseV_succ]
    simp [h1, h2, h3, h4]
  | .arr (.cons x xs), f + 1, rest, hf, hr => by
    simp only [J.arr.sizeOf_spec, JList.cons.sizeOf_spec] at hf
    have h1 : ('[' = 'n') = False := by decide
    have h2 : ('[' = 't') = False := by decide
    have h3 : ('[' = 'f') = False := by decide
    have h4 : ('[' = dquo) = False := by decide
    have helems := parseElems_ser x xs f (']' :: rest) (by omega) (by rfl) (by rfl)
    obtain ⟨c, tl, hsx, hc1, _, _, _⟩ := serV_head x
    rw [hsx, List.cons_append] at helems
    show parseV (f + 1) (('[' :: (serV x ++ serListTail xs) ++ [']']) ++ rest) = _
    simp only [List.cons_append, List.append_assoc, List.singleton_append]
    rw [hsx, List.cons_append, parseV_succ]
    simp only [h1, h2, h3, h4, hc1, if_false, eq_self_iff_true, if_true, List.nil_append]
    rw [helems]
    simp
  | .obj .nil, f + 1, rest, _, _ => by
    have h1 : (lbraceC = 'n') = False := by decide
    have h2 : (lbraceC = 't') = False := by decide
    have h3 : (lbraceC = 'f') = False := by decide
    have h4 : (lbraceC = dquo) = False := by decide
    have h5 : (lbraceC = '[') = False := by decide
    rw [show serV (J.obj JFields.nil) ++ rest = lbraceC :: rbraceC :: rest from rfl, parseV_succ]
    simp [h1, h2, h3, h4, h5]
  | .obj (.cons k v fs), f + 1, rest, hf, hr => by
    have h1 : (lbraceC = 'n') = False := by decide
    have h2 : (lbraceC = 't') = False := by decide
    have h3 : (lbraceC = 'f') = False := by decide
    have h4 : (lbraceC = dquo) = False := by decide
    have h5 : (lbraceC = '[') = False := by decide
    have h6 : (dquo = rbraceC) = False := by decide
    simp only [J.obj.sizeOf_spec, JFields.cons.sizeOf_spec] at hf
    have hfields := parseFields_ser k v fs f (rbraceC :: rest) (by omega) (by rfl) (by rfl)
    rw [show serField k v = dquo :: (escChars k.data ++ (dquo :: ':' :: serV v)) from by
      simp [serField], List.cons_append] at hfields
    show parseV (f + 1)
      ((lbraceC :: ((dquo :: escChars k.data ++ dquo :: ':' :: serV v) ++ serFieldsTail fs)
        ++ [rbraceC]) ++ rest) = _
    simp only [List.cons_append, List.append_assoc, List.singleton_append]
    rw [parseV_succ]
    simp only [h1, h2, h3, h4, h5, h6, if_false, eq_self_iff_true, if_true]
    simp only [List.cons_append, List.append_assoc, List.nil_append] at hfields ⊢
    rw [hfields]
    simp
termination_by v _ _ _ _ => sizeOf v

theorem parseElems_ser : ∀ (x : J) (xs : JList) (f : Nat) (rest : List Char),
    1 + sizeOf x + sizeOf xs < f → headNotDigit rest = true → headNe ',' rest = true →
    parseElems f (serV x ++ (serListTail xs ++ rest)) = some (.cons x xs, rest)
  | _, _, 0, _, hf, _, _ => absurd hf (by omega)
  | x, xs, f + 1, rest, hf, hr1, hr2 => by
    rw [parseElems_succ]
    have hx : sizeOf x < f := by omega
    cases xs with
    | nil =>
      rw [show serListTail JList.nil = [] from rfl, List.nil_append]
      rw [parseV_serV x f rest hx hr1]
      cases rest with
      | nil => rfl
      | cons d r2 =>
        have hd : (d = ',') = False := headNe_cons hr2
        simp [hd]
    | cons y ys =>
      simp only [JList.cons.sizeOf_spec] at hf
      rw [show serListTail (JList.cons y ys) = ',' :: serV y ++ serListTail ys from rfl]
      simp only [List.cons_append, List.append_assoc]
      rw [parseV_serV x f _ hx (by rfl)]
      simp only [eq_self_iff_true, if_true]
      rw [parseElems_ser y ys f rest (by omega) hr1 hr2]
termination_by x xs _ _ _ => 1 + sizeOf x + sizeOf xs

theorem parseFields_ser : ∀ (k : String) (v : J) (fs : JFields) (f : Nat) (rest : List Char),
    1 + sizeOf v + sizeOf fs < f → headNotDigit rest = true → headNe ',' rest = true →
    parseFields f (serField k v ++ (serFieldsTail fs ++ rest)) = some (.cons k v fs, rest)
  | _, _, _, 0, _, hf, _, _ => absurd hf (by omega)
  | k, v, fs, f + 1, rest, hf, hr1, hr2 => by
    have hv : sizeOf v < f := by omega
    have hnd : headNotDigit (serFieldsTail fs ++ rest) = true := by
      cases fs with
      | nil => exact hr1
      | cons k2 v2 fs2 => rfl
    rw [show serField k v ++ (serFieldsTail fs ++ rest)
        = dquo :: (escChars k.data ++ (dquo :: ':' :: (serV v ++ (serFieldsTail fs ++ rest))))
        from by simp [serField]]
    rw [parseFields_step]
    rw [parseV_serV v f _ hv hnd]
    cases fs with
    | nil =>
      rw [show serFieldsTail JFields.nil = [] from rfl, List.nil_append]
      cases rest with
      | nil => rfl
      | cons d r2 =>
        have hd : (d = ',') = False := headNe_cons hr2
        simp [hd]
    | cons k2 v2 fs2 =>
      simp only [JFields.cons.sizeOf_spec] at hf
      have hrec := parseFields_ser k2 v2 fs2 f rest (by omega) hr1 hr2
      rw [show serField k2 v2 ++ (serFieldsTail fs2 ++ rest)
          = dquo :: (escChars k2.data ++ (dquo :: ':' :: (serV v2 ++ (serFieldsTail fs2 ++ rest))))
          from by simp [serField]] at hrec
      rw [show serFieldsTail (JFields.cons k2 v2 fs2) ++ rest
          = ',' :: (dquo :: (escChars k2.data ++ (dquo :: ':' :: (serV v2
              ++ (serFieldsTail fs2 ++ rest)))))
          from by
        rw [show serFieldsTail (JFields.cons k2 v2 fs2)
            = ',' :: (dquo :: escChars k2.data ++ dquo :: ':' :: serV v2) ++ serFieldsTail fs2
            from rfl]
        simp [List.cons_append, List.append_assoc]]
      dsimp only
      simp only [eq_self_iff_true, if_true]
      rw [hrec]
termination_by _ v fs _ _ => 1 + sizeOf v + sizeOf fs

end

/-- The JSON serialization is injective. -/
theorem serV_inj {a b : J} (h : serV a = serV b) : a = b := by
  have ha := parseV_serV a (sizeOf a + sizeOf b + 1) [] (by omega) rfl
  have hb := parseV_serV b (sizeOf a + sizeOf b + 1) [] (by omega) rfl
  rw [List.append_nil] at ha hb
  rw [h, hb] at ha
  simpa using ha.symm

/-! ## Header values and the cache key

`src/node.ts` (withCache) builds the default cache key with
getHasuraHeaders (`src/hasura.ts`) and safe-stable-stringify:

  cacheKeySerialize(arg) =
    stableJson({ __operation: arg.operation, v: arg.variables,
                 auth: arg.headers[the authorization key],
                 ...getHasuraHeaders(arg.headers) })

Header values are strings, string arrays or numbers (Node's header records);
fields whose value is undefined (absent operation name, absent variables,
absent authorization header) are omitted by the serializer, modelled by the
Option-driven `optField`. -/

inductive HV : Type where
  | str (s : String) : HV
  | num (n : Nat) : HV
  | list (xs : List String) : HV
deriving DecidableEq

/-- Header records (JS objects, lower-cased names as Node delivers them). -/
def THeaders : Type := List (String × HV)

def jOfStrings : List String → JList
  | [] => .nil
  | s :: r => .cons (J.str s) (jOfStrings r)

/-- A header value as the JSON value the key serializer sees. -/
def hvJson : HV → J
  | .str s => .str s
  | .num n => .num (n : Int)
  | .list xs => .arr (jOfStrings xs)

theorem jOfStrings_inj {xs ys : List String} (h : jOfStrings xs = jOfStrings ys) :
    xs = ys := by
  induction xs generalizing ys with
  | nil => cases ys with
    | nil => rfl
    | cons b bs => exact absurd h (by simp [jOfStrings])
  | cons a as ih =>
    cases ys with
    | nil => exact absurd h (by simp [jOfStrings])
    | cons b bs =>
      rw [jOfStrings, jOfStrings] at h
      injection h with h1 h2
      injection h1 with h3
      rw [h3, ih h2]

theorem hvJson_inj {a b : HV} (h : hvJson a = hvJson b) : a = b := by
  cases a <;> cases b <;> simp only [hvJson, J.str.injEq, J.num.injEq, J.arr.injEq] at h <;>
    first
      | (rw [h])
      | (rw [Int.ofNat_inj.mp h])
      | (rw [jOfStrings_inj h])
      | (exact absurd h (by simp))

theorem canonL_jOfStrings (xs : List String) : canonL (jOfStrings xs) = jOfStrings xs := by
  induction xs with
  | nil => rfl
  | cons a as ih => simp [jOfStrings, canonL, canon, ih]

/-- Canonicalization does not change the JSON image of a header value (it has
no nested objects). -/
theorem canon_hvJson (a : HV) : canon (hvJson a) = hvJson a := by
  cases a with
  | str s => rfl
  | num n => rfl
  | list xs => simp [hvJson, canon, canonL_jOfStrings]

/-- Pattern `pat` begins the character list `s`. -/
def listStartsWith : List Char → List Char → Bool
  | [], _ => true
  | _ :: _, [] => false
  | a :: as, b :: bs => if a = b then listStartsWith as bs else false

/-- The trusted-header projection test of `src/hasura.ts`:
`key.toLowerCase().startsWith(the vendor prefix)`. -/
def isHasuraKey (k : String) : Bool :=
  listStartsWith ("x-hasura".data) (k.data.map Char.toLower)

def getHasuraHeaders (headers : THeaders) : THeaders :=
  headers.filter fun p => isHasuraKey p.1

/-- An optional object field, omitted (like JSON.stringify omits undefined
values) when absent. -/
def optField (name : String) : Option J → List (String × J)
  | none => []
  | some v => [(name, v)]

/-- The argument object of the default cacheKeySerialize (src/node.ts):
operation name, variables, authorization header, then the spread trusted
headers. -/
def cacheKeyArgs (operation : Option String) (vars : Option J)
    (headers : THeaders) : List (String × J) :=
  optField "__operation" (operation.map J.str) ++
    optField "v" vars ++
    optField "auth" ((aget "authorization" headers).map hvJson) ++
    (getHasuraHeaders headers).map fun p => (p.1, hvJson p.2)

/-- The default cache-key serialization of withCache (src/node.ts):
safe-stable-stringify of the argument object, i.e. the JSON serialization
with every object level sorted by key. -/
def cacheKeySerialize (operation : Option String) (vars : Option J)
    (headers : THeaders) : String :=
  String.mk (serV (canon (J.obj (ofPairs (cacheKeyArgs operation vars headers)))))

theorem aget_append_left {α : Type} {k : String} {l1 : List (String × α)} {v : α}
    (h : aget k l1 = some v) (l2 : List (String × α)) : aget k (l1 ++ l2) = some v := by
  induction l1 with
  | nil => simp [aget] at h
  | cons p r ih =>
    by_cases hp : p.1 = k
    · simp only [aget, if_pos hp] at h
      simp [aget, hp, h]
    · simp only [aget, if_neg hp] at h
      simp [aget, hp, ih h]

theorem aget_append_right {α : Type} {k : String} {l1 : List (String × α)}
    (h : aget k l1 = none) (l2 : List (String × α)) : aget k (l1 ++ l2) = aget k l2 := by
  induction l1 with
  | nil => simp
  | cons p r ih =>
    by_cases hp : p.1 = k
    · simp [aget, hp] at h
    · simp only [aget, if_neg hp] at h
      simp [aget, hp, ih h]

theorem canonPairs_append (l1 l2 : List (String × J)) :
    canonPairs (l1 ++ l2) = canonPairs l1 ++ canonPairs l2 := by
  simp [canonPairs]

theorem canonPairs_keys (l : List (String × J)) :
    (canonPairs l).map Prod.fst = l.map Prod.fst := by
  simp [canonPairs]

theorem nodupKeys_canonPairs {l : List (String × J)} (nd : NodupKeys l) :
    NodupKeys (canonPairs l) := by
  unfold NodupKeys at nd ⊢
  rw [canonPairs_keys]
  exact nd

theorem hasuraKeys_spec {h : THeaders} :
    ∀ k ∈ (getHasuraHeaders h).map Prod.fst, isHasuraKey k = true := by
  intro k hk
  obtain ⟨p, hp, rfl⟩ := List.mem_map.mp hk
  unfold getHasuraHeaders at hp
  simpa using List.of_mem_filter hp

theorem hasuraKeys_nodup {h : THeaders} (nd : NodupKeys h) :
    ((getHasuraHeaders h).map Prod.fst).Nodup :=
  nd.sublist ((List.filter_sublist h).map Prod.fst)

/-- The trusted-header part of the key-argument object, after value
canonicalization. -/
def hasuraPart (h : THeaders) : List (String × J) :=
  canonPairs ((getHasuraHeaders h).map fun p => (p.1, hvJson p.2))

theorem hasuraPart_eq (h : THeaders) :
    hasuraPart h = (getHasuraHeaders h).map fun p => (p.1, hvJson p.2) := by
  unfold hasuraPart canonPairs
  rw [List.map_map]
  apply List.map_congr_left
  intro p _
  simp [Function.comp, canon_hvJson]

theorem hasuraPart_keys {h : THeaders} :
    ∀ p ∈ hasuraPart h, isHasuraKey p.1 = true := by
  intro p hp
  rw [hasuraPart_eq] at hp
  obtain ⟨q, hq, rfl⟩ := List.mem_map.mp hp
  unfold getHasuraHeaders at hq
  simpa using List.of_mem_filter hq

/-- The keys of the cache-key argument object are unique: the three fixed
field names are pairwise distinct and no trusted header has one of them as its
name (trusted names start with the vendor prefix). -/
theorem nodupKeys_cacheKeyArgs (op : Option String) (v : Option J) {h : THeaders}
    (nd : NodupKeys h) : NodupKeys (cacheKeyArgs op v h) := by
  have hDnodup := hasuraKeys_nodup nd
  have hno : ∀ kk : String, isHasuraKey kk = false →
      kk ∉ (getHasuraHeaders h).map Prod.fst := by
    intro kk hkk hm
    rw [hasuraKeys_spec kk hm] at hkk
    exact absurd hkk (by simp)
  have hbig : ("__operation" :: "v" :: "auth" :: (getHasuraHeaders h).map Prod.fst).Nodup := by
    refine List.nodup_cons.mpr ⟨?_, List.nodup_cons.mpr ⟨?_, List.nodup_cons.mpr
      ⟨hno "auth" (by decide), hDnodup⟩⟩⟩
    · intro hm
      rcases List.mem_cons.mp hm with h1 | hm2
      · exact absurd h1 (by decide)
      rcases List.mem_cons.mp hm2 with h1 | hm3
      · exact absurd h1 (by decide)
      · exact hno "__operation" (by decide) hm3
    · intro hm
      rcases List.mem_cons.mp hm with h1 | hm2
      · exact absurd h1 (by decide)
      · exact hno "v" (by decide) hm2
  have hsubl : List.Sublist ((cacheKeyArgs op v h).map Prod.fst)
      ("__operation" :: "v" :: "auth" :: (getHasuraHeaders h).map Prod.fst) := by
    have s1 : List.Sublist ((optField "__operation" (op.map J.str)).map Prod.fst)
        ["__operation"] := by
      cases op <;> simp [optField]
    have s2 : List.Sublist ((optField "v" v).map Prod.fst) ["v"] := by
      cases v <;> simp [optField]
    have s3 : List.Sublist
        ((optField "auth" ((aget "authorization" h).map hvJson)).map Prod.fst) ["auth"] := by
      cases aget "authorization" h <;> simp [optField]
    have s4 : (((getHasuraHeaders h).map fun p => (p.1, hvJson p.2)).map Prod.fst
        : List String) = (getHasuraHeaders h).map Prod.fst := by simp
    unfold cacheKeyArgs
    simp only [List.map_append, s4, List.append_assoc]
    exact List.Sublist.append s1 (List.Sublist.append s2 (List.Sublist.append s3
      (List.Sublist.refl _)))
  exact hbig.sublist hsubl

theorem aget_hasuraPart_none {h : THeaders} {k : String} (hk : isHasuraKey k = false) :
    aget k (hasuraPart h) = none := by
  apply aget_none_of_keys
  intro p hp hcontra
  have := hasuraPart_keys p hp
  rw [hcontra, hk] at this
  exact absurd this (by simp)

theorem aget_args_v (op : Option String) (v : Option J) (h : THeaders) :
    aget "v" (canonPairs (cacheKeyArgs op v h)) = v.map canon := by
  have hA : aget "v" (canonPairs (optField "__operation" (op.map J.str))) = none := by
    cases op <;> simp [optField, canonPairs, aget]
  unfold cacheKeyArgs
  rw [canonPairs_append, canonPairs_append, canonPairs_append]
  simp only [List.append_assoc]
  rw [aget_append_right hA]
  cases v with
  | none =>
    rw [show canonPairs (optField "v" (none : Option J)) = [] from rfl, List.nil_append]
    have hC : aget "v" (canonPairs (optField "auth" ((aget "authorization" h).map hvJson)))
        = none := by
      cases aget "authorization" h <;> simp [optField, canonPairs, aget]
    rw [aget_append_right hC]
    exact aget_hasuraPart_none (by decide)
  | some vv =>
    rw [show canonPairs (optField "v" (some vv)) = [("v", canon vv)] from rfl,
      aget_append_left (show aget "v" [("v", canon vv)] = some (canon vv) from by simp [aget])]
    rfl

theorem aget_args_auth (op : Option String) (v : Option J) (h : THeaders) :
    aget "auth" (canonPairs (cacheKeyArgs op v h))
      = (aget "authorization" h).map hvJson := by
  have hA : aget "auth" (canonPairs (optField "__operation" (op.map J.str))) = none := by
    cases op <;> simp [optField, canonPairs, aget]
  have hB : aget "auth" (canonPairs (optField "v" v)) = none := by
    cases v <;> simp [optField, canonPairs, aget]
  unfold cacheKeyArgs
  rw [canonPairs_append, canonPairs_append, canonPairs_append]
  simp only [List.append_assoc]
  rw [aget_append_right hA, aget_append_right hB]
  cases hauth : aget "authorization" h with
  | none =>
    rw [show canonPairs (optField "auth" ((none : Option HV).map hvJson)) = [] from rfl,
      List.nil_append]
    exact aget_hasuraPart_none (by decide)
  | some a =>
    rw [show canonPairs (optField "auth" ((some a).map hvJson))
        = [("auth", canon (hvJson a))] from rfl,
      aget_append_left (show aget "auth" [("auth", canon (hvJson a))]
        = some (canon (hvJson a)) from by simp [aget])]
    rw [canon_hvJson]
    rfl

theorem aget_args_hasura (op : Option String) (v : Option J) (h : THeaders)
    {k : String} (hk : isHasuraKey k = true) :
    aget k (canonPairs (cacheKeyArgs op v h)) = (aget k h).map hvJson := by
  have hkop : k ≠ "__operation" := by
    rintro rfl
    exact absurd hk (by decide)
  have hkv : k ≠ "v" := by
    rintro rfl
    exact absurd hk (by decide)
  have hka : k ≠ "auth" := by
    rintro rfl
    exact absurd hk (by decide)
  have hA : aget k (canonPairs (optField "__operation" (op.map J.str))) = none := by
    cases op <;> simp [optField, canonPairs, aget, Ne.symm hkop]
  have hB : aget k (canonPairs (optField "v" v)) = none := by
    cases v <;> simp [optField, canonPairs, aget, Ne.symm hkv]
  have hC : aget k (canonPairs (optField "auth" ((aget "authorization" h).map hvJson)))
      = none := by
    cases aget "authorization" h <;> simp [optField, canonPairs, aget, Ne.symm hka]
  unfold cacheKeyArgs
  rw [canonPairs_append, canonPairs_append, canonPairs_append]
  simp only [List.append_assoc]
  rw [aget_append_right hA, aget_append_right hB, aget_append_right hC]
  rw [show canonPairs ((getHasuraHeaders h).map fun p => (p.1, hvJson p.2))
      = (getHasuraHeaders h).map fun p => (p.1, hvJson p.2) from hasuraPart_eq h]
  rw [aget_map_val]
  unfold getHasuraHeaders
  rw [aget_filter_key hk]

/-- Claim C1: for requests to the same cache-wrapped query operation, the
default cache-key serialization of withCache (src/node.ts) is injective in
the variables (up to JSON object key order, which the stable serializer
deliberately ignores), the `authorization` header and every x-hasura-prefixed
header: if two requests produce the same key string they agree on all three,
so two requests that differ in any of them get different key strings and never
share a cache entry or an in-flight execution. -/
theorem cacheKey_isolation (op : Option String) (v1 v2 : Option J)
    (h1 h2 : THeaders) (nd1 : NodupKeys h1) (nd2 : NodupKeys h2)
    (hkey : cacheKeySerialize op v1 h1 = cacheKeySerialize op v2 h2) :
    Option.map canon v1 = Option.map canon v2 ∧
      aget "authorization" h1 = aget "authorization" h2 ∧
      ∀ k, isHasuraKey k = true → aget k h1 = aget k h2 := by
  have hvinj : Function.Injective hvJson := fun a b hh => hvJson_inj hh
  have hser : serV (canon (J.obj (ofPairs (cacheKeyArgs op v1 h1))))
      = serV (canon (J.obj (ofPairs (cacheKeyArgs op v2 h2)))) := congrArg String.data hkey
  have hc := serV_inj hser
  rw [canon_obj_ofPairs, canon_obj_ofPairs] at hc
  injection hc with hfs
  have hl := ofPairs_inj hfs
  have p1 := (insSortL_perm (canonPairs (cacheKeyArgs op v1 h1))).symm
  have p2 := insSortL_perm (canonPairs (cacheKeyArgs op v2 h2))
  rw [← hl] at p2
  have hperm := p1.trans p2
  have ndA := nodupKeys_canonPairs (nodupKeys_cacheKeyArgs op v1 nd1)
  refine ⟨?_, ?_, ?_⟩
  · have e := aget_eq_of_perm hperm ndA "v"
    rw [aget_args_v, aget_args_v] at e
    exact e
  · have e := aget_eq_of_perm hperm ndA "auth"
    rw [aget_args_auth, aget_args_auth] at e
    exact Option.map_injective hvinj e
  · intro k hk
    have e := aget_eq_of_perm hperm ndA k
    rw [aget_args_hasura op v1 h1 hk, aget_args_hasura op v2 h2 hk] at e
    exact Option.map_injective hvinj e

/-- Concrete instance of the key-isolation theorem: two requests whose
variables differ only in object key order and whose headers differ only in
record order produce the same key and indeed agree on variables (canonically),
authorization and trusted headers. -/
theorem cacheKey_isolation_witness :
    Option.map canon (some (J.obj (ofPairs [("b", J.num 2), ("a", J.num 1)])))
        = Option.map canon (some (J.obj (ofPairs [("a", J.num 1), ("b", J.num 2)]))) ∧
      aget "authorization" [("authorization", HV.str "secret"),
          ("X-Hasura-Role", HV.str "admin")]
        = aget "authorization" [("X-Hasura-Role", HV.str "admin"),
          ("authorization", HV.str "secret")] ∧
      ∀ k, isHasuraKey k = true →
        aget k [("authorization", HV.str "secret"), ("X-Hasura-Role", HV.str "admin")]
          = aget k [("X-Hasura-Role", HV.str "admin"), ("authorization", HV.str "secret")] :=
  cacheKey_isolation none
    (some (J.obj (ofPairs [("b", J.num 2), ("a", J.num 1)])))
    (some (J.obj (ofPairs [("a", J.num 1), ("b", J.num 2)])))
    [("authorization", HV.str "secret"), ("X-Hasura-Role", HV.str "admin")]
    [("X-Hasura-Role", HV.str "admin"), ("authorization", HV.str "secret")]
    (by unfold NodupKeys; decide) (by unfold NodupKeys; decide) (by rfl)

/-! ## The deduplicating TTL cache

Modelled from the spec: the cache layer itself is the external library
async-cache-dedupe, which is not part of this repository.  Following spec
sections 3 and 4.5: a cache entry is either an in-flight execution (with its
waiters) or a resolved value with an absolute expiry; a request whose key has
a live entry joins it, otherwise it dispatches; on resolution every waiter of
the group observes the same resolved value, and for ttl > 0 the value is
stored until `resolve time + ttl`.  `perCall` is the number of upstream
dispatches one invocation of the wrapped resolver costs (1 for a plain remote
operation, 0 for an override). -/

inductive CEntry (V : Type) : Type where
  | pending (waiters : List Nat) : CEntry V
  | resolved (v : V) (expiry : Nat) : CEntry V

structure CState (V : Type) : Type where
  entries : List (String × CEntry V)
  dispatches : Nat
  results : List (Nat × V)

inductive CEvent (V : Type) : Type where
  | start (id : Nat) (key : String) (t : Nat) : CEvent V
  | settle (key : String) (v : V) (t : Nat) : CEvent V

def cacheStep {V : Type} (ttl perCall : Nat) (s : CState V) : CEvent V → CState V
  | .start id key t =>
    match aget key s.entries with
    | some (.pending ws) =>
      { s with entries := aset key (.pending (id :: ws)) s.entries }
    | some (.resolved v exp) =>
      if t < exp then { s with results := (id, v) :: s.results }
      else { s with entries := aset key (.pending [id]) s.entries,
                    dispatches := s.dispatches + perCall }
    | none =>
      { s with entries := aset key (.pending [id]) s.entries,
               dispatches := s.dispatches + perCall }
  | .settle key v t =>
    match aget key s.entries with
    | some (.pending ws) =>
      { s with
        entries := if 0 < ttl then aset key (.resolved v (t + ttl)) s.entries
                   else adel key s.entries,
        results := (ws.map fun id => (id, v)) ++ s.results }
    | _ => s

def cacheRun {V : Type} (ttl perCall : Nat) (events : List (CEvent V)) : CState V :=
  events.foldl (cacheStep ttl perCall) ⟨[], 0, []⟩

theorem cacheStep_dispatches_zero {V : Type} (ttl : Nat) (s : CState V) (e : CEvent V) :
    (cacheStep ttl 0 s e).dispatches = s.dispatches := by
  cases e with
  | start id key t =>
    rw [cacheStep]
    rcases aget key s.entries with _ | entry
    · simp
    · rcases entry with ws | ⟨v, exp⟩
      · simp
      · dsimp only
        split <;> simp
  | settle key v t =>
    rw [cacheStep]
    rcases aget key s.entries with _ | entry
    · simp
    · rcases entry with ws | ⟨v2, exp⟩ <;> simp

theorem cacheRun_dispatches_zero_aux {V : Type} (ttl : Nat) (events : List (CEvent V)) :
    ∀ s : CState V, (events.foldl (cacheStep ttl 0) s).dispatches = s.dispatches := by
  induction events with
  | nil => intro s; rfl
  | cons e r ih =>
    intro s
    rw [List.foldl_cons, ih, cacheStep_dispatches_zero]

/-- A wrapped resolver that never dispatches upstream (an override) keeps the
upstream dispatch count at zero over any sequence of cache events. -/
theorem cacheRun_dispatches_zero {V : Type} (ttl : Nat) (events : List (CEvent V)) :
    (cacheRun ttl 0 events).dispatches = 0 :=
  cacheRun_dispatches_zero_aux ttl events _

/-- Claim C2 (spec-modelled cache layer): for a query operation cached with
ttl > 0, two calls with identical operation, variables, authorization and
trusted headers — hence, by the key serialization, the same cache key —
trigger exactly one upstream dispatch and observe the same resolved value,
whether the second call arrives while the first is in flight or after it
resolved but within the ttl window; all waiters of one deduplicated group
receive the value of the single shared resolution. -/
theorem withCache_ttl_dedup {V : Type} (vars : Option J) (hdrs : THeaders) (v : V)
    (ttl t1 t2 tr : Nat) (httl : 0 < ttl) (h12 : t2 < t1 + ttl) (h1r : t1 ≤ tr) :
    ((cacheRun ttl 1 [CEvent.start 1 (cacheKeySerialize none vars hdrs) t1,
        CEvent.settle (cacheKeySerialize none vars hdrs) v tr,
        CEvent.start 2 (cacheKeySerialize none vars hdrs) t2]).dispatches = 1 ∧
      (cacheRun ttl 1 [CEvent.start 1 (cacheKeySerialize none vars hdrs) t1,
        CEvent.settle (cacheKeySerialize none vars hdrs) v tr,
        CEvent.start 2 (cacheKeySerialize none vars hdrs) t2]).results
        = [(2, v), (1, v)]) ∧
    ((cacheRun ttl 1 [CEvent.start 1 (cacheKeySerialize none vars hdrs) t1,
        CEvent.start 2 (cacheKeySerialize none vars hdrs) t2,
        CEvent.settle (cacheKeySerialize none vars hdrs) v tr]).dispatches = 1 ∧
      (cacheRun ttl 1 [CEvent.start 1 (cacheKeySerialize none vars hdrs) t1,
        CEvent.start 2 (cacheKeySerialize none vars hdrs) t2,
        CEvent.settle (cacheKeySerialize none vars hdrs) v tr]).results
        = [(2, v), (1, v)]) := by
  have hlt : t2 < tr + ttl := by omega
  have e1 : cacheStep ttl 1 (⟨[], 0, []⟩ : CState V)
      (CEvent.start 1 (cacheKeySerialize none vars hdrs) t1)
      = ⟨[(cacheKeySerialize none vars hdrs, CEntry.pending [1])], 1, []⟩ := rfl
  have e2 : cacheStep ttl 1
      (⟨[(cacheKeySerialize none vars hdrs, CEntry.pending [1])], 1, []⟩ : CState V)
      (CEvent.settle (cacheKeySerialize none vars hdrs) v tr)
      = ⟨[(cacheKeySerialize none vars hdrs, CEntry.resolved v (tr + ttl))], 1,
          [(1, v)]⟩ := by
    simp [cacheStep, aget, aset, httl]
  have e3 : cacheStep ttl 1
      (⟨[(cacheKeySerialize none vars hdrs, CEntry.resolved v (tr + ttl))], 1,
        [(1, v)]⟩ : CState V)
      (CEvent.start 2 (cacheKeySerialize none vars hdrs) t2)
      = ⟨[(cacheKeySerialize none vars hdrs, CEntry.resolved v (tr + ttl))], 1,
          [(2, v), (1, v)]⟩ := by
    simp [cacheStep, aget, hlt]
  have e2b : cacheStep ttl 1
      (⟨[(cacheKeySerialize none vars hdrs, CEntry.pending [1])], 1, []⟩ : CState V)
      (CEvent.start 2 (cacheKeySerialize none vars hdrs) t2)
      = ⟨[(cacheKeySerialize none vars hdrs, CEntry.pending [2, 1])], 1, []⟩ := by
    simp [cacheStep, aget, aset]
  have e3b : cacheStep ttl 1
      (⟨[(cacheKeySerialize none vars hdrs, CEntry.pending [2, 1])], 1, []⟩ : CState V)
      (CEvent.settle (cacheKeySerialize none vars hdrs) v tr)
      = ⟨[(cacheKeySerialize none vars hdrs, CEntry.resolved v (tr + ttl))], 1,
          [(2, v), (1, v)]⟩ := by
    simp [cacheStep, aget, aset, httl]
  refine ⟨?_, ?_⟩ <;>
    · simp only [cacheRun, List.foldl_cons, List.foldl_nil]
      first
        | (rw [e1, e2, e3]; exact ⟨rfl, rfl⟩)
        | (rw [e1, e2b, e3b]; exact ⟨rfl, rfl⟩)

/-- Concrete instance of the dedup/ttl theorem (value 42, ttl 5 seconds,
first call at 0 resolving at 1, second call at 3). -/
theorem withCache_ttl_dedup_witness :
    ((cacheRun 5 1 [CEvent.start 1 (cacheKeySerialize none none []) 0,
        CEvent.settle (cacheKeySerialize none none []) (42 : Nat) 1,
        CEvent.start 2 (cacheKeySerialize none none []) 3]).dispatches = 1 ∧
      (cacheRun 5 1 [CEvent.start 1 (cacheKeySerialize none none []) 0,
        CEvent.settle (cacheKeySerialize none none []) (42 : Nat) 1,
        CEvent.start 2 (cacheKeySerialize none none []) 3]).results
        = [(2, 42), (1, 42)]) ∧
    ((cacheRun 5 1 [CEvent.start 1 (cacheKeySerialize none none []) 0,
        CEvent.start 2 (cacheKeySerialize none none []) 3,
        CEvent.settle (cacheKeySerialize none none []) (42 : Nat) 1]).dispatches = 1 ∧
      (cacheRun 5 1 [CEvent.start 1 (cacheKeySerialize none none []) 0,
        CEvent.start 2 (cacheKeySerialize none none []) 3,
        CEvent.settle (cacheKeySerialize none none []) (42 : Nat) 1]).results
        = [(2, 42), (1, 42)]) :=
  withCache_ttl_dedup none [] 42 5 0 3 1 (by decide) (by decide) (by decide)

/-! ## The remote dispatcher's outbound headers

`_requestRemote` in src/proxy.ts builds the headers handed to the injected
transport function:

    const headers = Object.assign({ ...props.headers,
      the content-length key: Buffer.byteLength(bodyPayload),
      the content-type key: the json media type });
    delete headers.connection;
    delete headers[the transfer-encoding key];

Note that `host` is NOT deleted in this dispatcher. -/

def buildUpstreamHeaders (h : THeaders) (body : String) : THeaders :=
  adel "transfer-encoding" (adel "connection"
    (aset "content-type" (HV.str "application/json")
      (aset "content-length" (HV.num body.utf8ByteSize) h)))

/-- Counterexample to claim C3 as stated: a client-supplied `host` header IS
present in the header collection `_requestRemote` (src/proxy.ts) hands to the
transport — only `connection` and `transfer-encoding` are dropped. -/
theorem requestRemote_forwards_host :
    aget "host" (buildUpstreamHeaders
        [("host", HV.str "client.example"), ("connection", HV.str "keep-alive")]
        "body")
      = some (HV.str "client.example") := rfl

/-- Claim C3 (amended): for every request, the header collection handed to
the transport contains no `connection` and no `transfer-encoding` header, its
`content-length` is the recomputed byte length of the serialized body (never
the client-supplied value) and its `content-type` is forced to
application/json; a client-supplied `host` header, however, is forwarded
unchanged. -/
theorem requestRemote_header_sanitization (h : THeaders) (body : String) :
    aget "connection" (buildUpstreamHeaders h body) = none ∧
      aget "transfer-encoding" (buildUpstreamHeaders h body) = none ∧
      aget "content-length" (buildUpstreamHeaders h body)
        = some (HV.num body.utf8ByteSize) ∧
      aget "content-type" (buildUpstreamHeaders h body)
        = some (HV.str "application/json") ∧
      aget "host" (buildUpstreamHeaders h body) = aget "host" h := by
  unfold buildUpstreamHeaders
  refine ⟨?_, ?_, ?_, ?_, ?_⟩
  · rw [aget_adel_ne (by decide), aget_adel_self]
  · rw [aget_adel_self]
  · rw [aget_adel_ne (by decide), aget_adel_ne (by decide),
      aget_aset_ne (by decide), aget_aset_self]
  · rw [aget_adel_ne (by decide), aget_adel_ne (by decide), aget_aset_self]
  · rw [aget_adel_ne (by decide), aget_adel_ne (by decide),
      aget_aset_ne (by decide), aget_aset_ne (by decide)]

/-! ## GraphQL documents and the operation registry

The registry of src/proxy.ts parses each registered document text (the
`graphql` library's parse/print are the external text representation; the
model works on the parsed document), extracts the single operation, removes
every @pcached directive — recording the integer value of its `ttl` argument —
and stores the stripped document under the operation's name in a Map. -/

inductive OperationType : Type where
  | query : OperationType
  | mutation : OperationType
  | subscription : OperationType
deriving DecidableEq

/-- A directive argument value (the ttl visitor only reacts to IntValue
nodes; any other value shape is collected as `other`). -/
inductive GValue : Type where
  | int (n : Int) : GValue
  | other (s : String) : GValue
deriving DecidableEq

structure GDirective : Type where
  name : String
  args : List (String × GValue)
deriving DecidableEq

mutual

inductive GSel : Type where
  | field (name : String) (directives : List GDirective) (sels : GSelList) : GSel

inductive GSelList : Type where
  | nil : GSelList
  | cons (hd : GSel) (tl : GSelList) : GSelList

end

structure GOpDef : Type where
  opType : OperationType
  name : Option String
  directives : List GDirective
  sels : GSelList

structure GDoc : Type where
  defs : List GOpDef

/-- getOperationAST with no operation name: the document's operation when it
has exactly one, otherwise null. -/
def getOperationAST (doc : GDoc) : Option GOpDef :=
  match doc.defs with
  | [op] => some op
  | _ => none

/-- The last IntValue inside the ttl arguments of one directive, as the
visitor's repeated `cacheTTL = +intNode.value` leaves it. -/
def dirTTL (d : GDirective) : Option Int :=
  d.args.foldl
    (fun acc p =>
      if p.1 = "ttl" then
        match p.2 with
        | .int n => some n
        | .other _ => acc
      else acc)
    none

/-- One directive's contribution to the running cacheTTL value. -/
def stepTTL (acc : Option Int) (d : GDirective) : Option Int :=
  if d.name = "pcached" then
    match dirTTL d with
    | some n => some n
    | none => acc
  else acc

/-- Removing every @pcached directive from a directive list (the visitor's
`return null` on a Directive node deletes it from the document). -/
def stripDirs (ds : List GDirective) : List GDirective :=
  ds.filter fun d => !(d.name == "pcached")

mutual

def stripSel : GSel → GSel
  | .field n ds sels => .field n (stripDirs ds) (stripSels sels)
termination_by structural s => s

def stripSels : GSelList → GSelList
  | .nil => .nil
  | .cons s tl => .cons (stripSel s) (stripSels tl)
termination_by structural l => l

end

def stripOp (o : GOpDef) : GOpDef :=
  { o with directives := stripDirs o.directives, sels := stripSels o.sels }

def stripDoc (doc : GDoc) : GDoc :=
  ⟨doc.defs.map stripOp⟩

mutual

/-- All directives of a selection in document (pre-) order. -/
def dirsOfSel : GSel → List GDirective
  | .field _ ds sels => ds ++ dirsOfSels sels
termination_by structural s => s

def dirsOfSels : GSelList → List GDirective
  | .nil => []
  | .cons s tl => dirsOfSel s ++ dirsOfSels tl
termination_by structural l => l

end

def dirsOfOp (o : GOpDef) : List GDirective :=
  o.directives ++ dirsOfSels o.sels

def dirsOfDoc (doc : GDoc) : List GDirective :=
  (doc.defs.map dirsOfOp).flatten

/-- The cacheTTL the pcached visitor leaves behind: the last @pcached
directive's ttl IntValue encountered in document order (directives without a
ttl IntValue leave the value unchanged). -/
def docTTL (doc : GDoc) : Option Int :=
  (dirsOfDoc doc).foldl stepTTL none

/-- A validation failure as returned by a validator (the source's
IValidationError also carries a constant `type: validation` tag). -/
structure IValidationError : Type where
  message : String

inductive PError : Type where
  | validation (msg : String) : PError
  | notFound (msg : String) : PError
deriving DecidableEq

structure ProxyResponse : Type where
  response : J
  headers : THeaders

structure RemoteReq : Type where
  query : GDoc
  vars : Option J
  headers : THeaders

/-- An operation's registry entry (OpsDef in src/proxy.ts): the stripped
document, operation kind and name, the behaviour ttl collected from @pcached,
and the mutable validator/override slots. -/
structure OpsDef : Type where
  document : GDoc
  opType : OperationType
  name : String
  behaviourTtl : Option Int
  validate : Option (Option J → Option IValidationError)
  customHandler : Option (Option J → THeaders → J)

def mkOpsDef (nm : String) (op : GOpDef) (doc : GDoc) : OpsDef :=
  { document := stripDoc doc, opType := op.opType, name := nm,
    behaviourTtl := docTTL doc, validate := none, customHandler := none }

/-- Registry construction (createGraphqlProxy in src/proxy.ts): for each
registered document, extract the single operation (error when absent), error
when it has no name, strip @pcached, then `opsMap.set(name, def)` — which
silently replaces an existing entry with the same name. -/
def buildRegistryGo : List (String × OpsDef) → List (String × GDoc) →
    Except String (List (String × OpsDef))
  | acc, [] => .ok acc
  | acc, (_, doc) :: rest =>
    match getOperationAST doc with
    | none => .error "could not retrieve operation from document"
    | some op =>
      match op.name with
      | none => .error "could not retrieve operation type or name from document"
      | some nm => buildRegistryGo (aset nm (mkOpsDef nm op doc) acc) rest

def buildRegistry (operations : List (String × GDoc)) :
    Except String (List (String × OpsDef)) :=
  buildRegistryGo [] operations

/-- OpsDef.resolve (src/proxy.ts): run the validator when present and fail
with ValidationError on a failure object; otherwise run the override when
present, wrapping its result as `{ data: ... }` with empty headers; otherwise
dispatch remotely.  The two counters record how many times the remote
dispatcher and the override handler were invoked by this call. -/
structure ResolveOut : Type where
  result : Except PError ProxyResponse
  dispatchCalls : Nat
  handlerCalls : Nat

def resolveAfterValidate (reqFn : RemoteReq → ProxyResponse) (d : OpsDef)
    (vars : Option J) (hdrs : THeaders) : ResolveOut :=
  match d.customHandler with
  | some hnd => ⟨.ok ⟨J.obj (.cons "data" (hnd vars hdrs) .nil), []⟩, 0, 1⟩
  | none => ⟨.ok (reqFn ⟨d.document, vars, hdrs⟩), 1, 0⟩

def resolveD (reqFn : RemoteReq → ProxyResponse) (d : OpsDef) (vars : Option J)
    (hdrs : THeaders) : ResolveOut :=
  match d.validate with
  | some vf =>
    match vf vars with
    | some err => ⟨.error (.validation err.message), 0, 0⟩
    | none => resolveAfterValidate reqFn d vars hdrs
  | none => resolveAfterValidate reqFn d vars hdrs

/-- The request facade (src/proxy.ts `request`): look the operation up,
NotFoundError when absent, otherwise resolve. -/
def requestP (reqFn : RemoteReq → ProxyResponse) (reg : List (String × OpsDef))
    (operationName : String) (vars : Option J) (hdrs : THeaders) : ResolveOut :=
  match aget operationName reg with
  | none => ⟨.error (.notFound ("operation " ++ operationName ++ " not found")), 0, 0⟩
  | some d => resolveD reqFn d vars hdrs

mutual

theorem dirsOfSel_strip : ∀ s : GSel, dirsOfSel (stripSel s) = stripDirs (dirsOfSel s)
  | .field n ds sels => by
    rw [stripSel, dirsOfSel, dirsOfSel]
    simp only [stripDirs, List.filter_append, dirsOfSels_strip sels]
termination_by structural s => s

theorem dirsOfSels_strip : ∀ l : GSelList, dirsOfSels (stripSels l) = stripDirs (dirsOfSels l)
  | .nil => rfl
  | .cons s tl => by
    rw [stripSels, dirsOfSels, dirsOfSels]
    simp only [stripDirs, List.filter_append, dirsOfSel_strip s, dirsOfSels_strip tl]
termination_by structural l => l

end

theorem dirsOfOp_strip (o : GOpDef) : dirsOfOp (stripOp o) = stripDirs (dirsOfOp o) := by
  rw [stripOp, dirsOfOp, dirsOfOp]
  simp only [stripDirs, List.filter_append, dirsOfSels_strip]

theorem dirsOfDoc_strip (doc : GDoc) :
    dirsOfDoc (stripDoc doc) = stripDirs (dirsOfDoc doc) := by
  rcases doc with ⟨defs⟩
  induction defs with
  | nil => rfl
  | cons o rest ih =>
    rw [show dirsOfDoc (stripDoc ⟨o :: rest⟩)
        = dirsOfOp (stripOp o) ++ dirsOfDoc (stripDoc ⟨rest⟩) from by
      simp [stripDoc, dirsOfDoc]]
    rw [show dirsOfDoc ⟨o :: rest⟩ = dirsOfOp o ++ dirsOfDoc ⟨rest⟩ from by
      simp [dirsOfDoc]]
    rw [dirsOfOp_strip, ih]
    simp only [stripDirs, List.filter_append]

/-- The example documents of the repository's directive-handling test:
`query test @pcached(ttl: 1) { test }`, `query abc @cached(ttl: 1) { test }`
and `query d { awaw }`. -/
def docPcachedEx : GDoc :=
  ⟨[⟨.query, some "test", [⟨"pcached", [("ttl", .int 1)]⟩],
    .cons (.field "test" [] .nil) .nil⟩]⟩

def docCachedEx : GDoc :=
  ⟨[⟨.query, some "abc", [⟨"cached", [("ttl", .int 1)]⟩],
    .cons (.field "test" [] .nil) .nil⟩]⟩

def docPlainEx : GDoc :=
  ⟨[⟨.query, some "d", [], .cons (.field "awaw" [] .nil) .nil⟩]⟩

/-- Claim C10: registry construction removes every @pcached directive from
the stored (and therefore forwarded) document while keeping all other
directives, and records the @pcached ttl integer as the operation's
behaviour ttl.  The general conjuncts say stripping is exactly the removal
of the pcached-named directives (everything else intact, nothing pcached
left); the concrete conjunct runs registry construction on the repository's
own directive-handling test documents: @pcached is stripped and ttl = 1 is
recorded, @cached is left in place with no ttl. -/
theorem pcached_directive_handling :
    (∀ doc : GDoc,
      dirsOfDoc (stripDoc doc) = (dirsOfDoc doc).filter (fun d => !(d.name == "pcached")) ∧
      (dirsOfDoc (stripDoc doc)).all (fun d => !(d.name == "pcached")) = true) ∧
    buildRegistry [("h1", docPcachedEx), ("h2", docCachedEx), ("h3", docPlainEx)]
      = .ok [("test",
          { document := ⟨[⟨.query, some "test", [], .cons (.field "test" [] .nil) .nil⟩]⟩,
            opType := .query, name := "test", behaviourTtl := some 1,
            validate := none, customHandler := none }),
        ("abc",
          { document := docCachedEx, opType := .query, name := "abc",
            behaviourTtl := none, validate := none, customHandler := none }),
        ("d",
          { document := docPlainEx, opType := .query, name := "d",
            behaviourTtl := none, validate := none, customHandler := none })] := by
  refine ⟨fun doc => ⟨dirsOfDoc_strip doc, ?_⟩, ?_⟩
  · rw [dirsOfDoc_strip, List.all_eq_true]
    intro d hd
    unfold stripDirs at hd
    simpa using List.of_mem_filter hd
  · rfl

/-- Two distinct documents that share the operation name "test". -/
def docDupA : GDoc :=
  ⟨[⟨.query, some "test", [], .cons (.field "fieldA" [] .nil) .nil⟩]⟩

def docDupB : GDoc :=
  ⟨[⟨.query, some "test", [], .cons (.field "fieldB" [] .nil) .nil⟩]⟩

/-- Counterexample to claim C4 as stated: building a registry from two
descriptors that share the operation name "test" does NOT fail — it succeeds,
and the second descriptor silently replaces the first (Map.set last-wins). -/
theorem duplicate_name_registry_succeeds :
    buildRegistry [("hash1", docDupA), ("hash2", docDupB)]
      = .ok [("test", ⟨docDupB, OperationType.query, "test", none, none, none⟩)] := rfl

/-- Claim C4 (amended): registry construction never fails on duplicate
operation names; when two well-formed documents share a name the construction
succeeds and the later descriptor silently replaces the earlier one (last
registration wins).  Construction-time errors occur only for malformed
documents (no single retrievable operation, or an anonymous operation). -/
theorem duplicate_name_last_wins (h1 h2 : String) (dA dB : GDoc) (opA opB : GOpDef)
    (nm : String) (hA : getOperationAST dA = some opA) (hAn : opA.name = some nm)
    (hB : getOperationAST dB = some opB) (hBn : opB.name = some nm) :
    buildRegistry [(h1, dA), (h2, dB)] = .ok [(nm, mkOpsDef nm opB dB)] := by
  unfold buildRegistry
  rw [buildRegistryGo, hA]
  dsimp only
  rw [hAn]
  dsimp only
  rw [buildRegistryGo, hB]
  dsimp only
  rw [hBn]
  dsimp only
  rw [buildRegistryGo]
  simp [aset]

/-- Concrete instance of the last-wins theorem on the duplicate documents. -/
theorem duplicate_name_last_wins_witness :
    buildRegistry [("hash1", docDupA), ("hash2", docDupB)]
      = .ok [("test", mkOpsDef "test" ⟨.query, some "test", [],
          .cons (.field "fieldB" [] .nil) .nil⟩ docDupB)] :=
  duplicate_name_last_wins "hash1" "hash2" docDupA docDupB
    ⟨.query, some "test", [], .cons (.field "fieldA" [] .nil) .nil⟩
    ⟨.query, some "test", [], .cons (.field "fieldB" [] .nil) .nil⟩
    "test" rfl rfl rfl rfl

/-- Claim C5: when the registered validator yields a validation failure
object, resolve fails with a ValidationError carrying the failure's message,
and neither the override handler nor the remote dispatcher is invoked. -/
theorem validator_failure_blocks (reqFn : RemoteReq → ProxyResponse) (d : OpsDef)
    (vars : Option J) (hdrs : THeaders) (vf : Option J → Option IValidationError)
    (err : IValidationError) (hv : d.validate = some vf) (herr : vf vars = some err) :
    resolveD reqFn d vars hdrs
      = ⟨.error (.validation err.message), 0, 0⟩ := by
  unfold resolveD
  rw [hv]
  dsimp only
  rw [herr]

def reqFnEx : RemoteReq → ProxyResponse := fun _ => ⟨J.null, []⟩

def vfFailEx : Option J → Option IValidationError := fun _ => some ⟨"notvalid"⟩

def opsDefValEx : OpsDef :=
  { document := docPlainEx, opType := .query, name := "d", behaviourTtl := none,
    validate := some vfFailEx,
    customHandler := some fun _ _ => J.num 222 }

/-- Concrete instance: an operation with a failing validator and an override
fails with the validator's message and performs zero dispatch and zero
handler calls. -/
theorem validator_failure_blocks_witness :
    resolveD reqFnEx opsDefValEx none []
      = ⟨.error (.validation "notvalid"), 0, 0⟩ :=
  validator_failure_blocks reqFnEx opsDefValEx none [] vfFailEx ⟨"notvalid"⟩ rfl rfl

/-- Claim C6: an operation with an override handler (whose validator, if any,
passes) resolves to the canonical `{ data: result }` shape with no upstream
response headers, performs zero remote dispatches, and — since the cache
layer wraps this resolver — any sequence of cache events over the wrapped
resolver also performs zero upstream dispatches. -/
theorem override_short_circuit (reqFn : RemoteReq → ProxyResponse) (d : OpsDef)
    (vars : Option J) (hdrs : THeaders) (hnd : Option J → THeaders → J)
    (hh : d.customHandler = some hnd)
    (hval : ∀ vf, d.validate = some vf → vf vars = none) :
    resolveD reqFn d vars hdrs
        = ⟨.ok ⟨J.obj (.cons "data" (hnd vars hdrs) .nil), []⟩, 0, 1⟩ ∧
      ∀ (V : Type) (ttl : Nat) (events : List (CEvent V)),
        (cacheRun ttl (resolveD reqFn d vars hdrs).dispatchCalls events).dispatches = 0 := by
  have h1 : resolveD reqFn d vars hdrs
      = ⟨.ok ⟨J.obj (.cons "data" (hnd vars hdrs) .nil), []⟩, 0, 1⟩ := by
    unfold resolveD
    cases hvd : d.validate with
    | none =>
      unfold resolveAfterValidate
      rw [hh]
    | some vf =>
      dsimp only
      rw [hval vf hvd]
      unfold resolveAfterValidate
      rw [hh]
  refine ⟨h1, ?_⟩
  intro V ttl events
  rw [h1]
  exact cacheRun_dispatches_zero ttl events

def opsDefOvEx : OpsDef :=
  { document := docPlainEx, opType := .query, name := "d", behaviourTtl := some 5,
    validate := none,
    customHandler := some fun _ _ => J.num 222 }

/-- Concrete instance: a cache-wrapped override operation returns
`{ data: 222 }` with empty headers and never dispatches, over any cache
schedule. -/
theorem override_short_circuit_witness :
    resolveD reqFnEx opsDefOvEx none []
        = ⟨.ok ⟨J.obj (.cons "data" (J.num 222) .nil), []⟩, 0, 1⟩ ∧
      ∀ (V : Type) (ttl : Nat) (events : List (CEvent V)),
        (cacheRun ttl (resolveD reqFnEx opsDefOvEx none []).dispatchCalls
          events).dispatches = 0 :=
  override_short_circuit reqFnEx opsDefOvEx none [] (fun _ _ => J.num 222) rfl
    (fun vf hvf => by simp [opsDefOvEx] at hvf)

/-- Claim C7: a request for an operation name that is not in the registry
fails with NotFoundError and performs no remote dispatch (and no handler
call). -/
theorem unknown_operation_not_found (reqFn : RemoteReq → ProxyResponse)
    (reg : List (String × OpsDef)) (nm : String) (vars : Option J) (hdrs : THeaders)
    (hmiss : aget nm reg = none) :
    requestP reqFn reg nm vars hdrs
      = ⟨.error (.notFound ("operation " ++ nm ++ " not found")), 0, 0⟩ := by
  unfold requestP
  rw [hmiss]

/-- Concrete instance: requesting "does-not-exist" on an empty registry. -/
theorem unknown_operation_not_found_witness :
    requestP reqFnEx [] "does-not-exist" none []
      = ⟨.error (.notFound ("operation " ++ "does-not-exist" ++ " not found")), 0, 0⟩ :=
  unknown_operation_not_found reqFnEx [] "does-not-exist" none [] rfl

/-! ## The cache wrapper's frame property (src/node.ts withCache) -/

/-- The slice of an OpsDef that withCache sees: its resolve slot is of an
abstract type ρ, and the cache machinery (cache.define + lookup) is an
arbitrary wrapper function. -/
structure NodeDef (ρ : Type) : Type where
  name : String
  opType : OperationType
  ttl : Option Int
  resolve : ρ

/-- withCache (src/node.ts): every query-kind definition's resolve slot is
replaced with the cache-wrapped resolver; all other definitions are left
untouched. -/
def withCache {ρ : Type} (wrap : NodeDef ρ → ρ) (defs : List (NodeDef ρ)) :
    List (NodeDef ρ) :=
  defs.map fun d => if d.opType = .query then { d with resolve := wrap d } else d

/-- Claim C8: withCache leaves every non-query definition unchanged — for any
wrapper whatsoever — so mutation-kind operations are never deduplicated or
cached regardless of TTL configuration; and a mutation resolved directly
(no override) dispatches upstream on every call, so two identical mutation
calls trigger two dispatches. -/
theorem withCache_skips_mutations :
    (∀ (ρ : Type) (wrap : NodeDef ρ → ρ) (defs : List (NodeDef ρ)) (i : Nat)
        (d : NodeDef ρ), defs[i]? = some d → d.opType ≠ .query →
        (withCache wrap defs)[i]? = some d) ∧
    (∀ (reqFn : RemoteReq → ProxyResponse) (d : OpsDef) (vars : Option J)
        (hdrs : THeaders), d.opType = .mutation → d.validate = none →
        d.customHandler = none →
        (resolveD reqFn d vars hdrs).dispatchCalls
          + (resolveD reqFn d vars hdrs).dispatchCalls = 2) := by
  constructor
  · intro ρ wrap defs i d hi hq
    unfold withCache
    rw [List.getElem?_map, hi]
    simp [hq]
  · intro reqFn d vars hdrs _ hv hc
    unfold resolveD
    rw [hv]
    unfold resolveAfterValidate
    rw [hc]
    rfl

def nodeDefMutEx : NodeDef Nat := ⟨"doMutation", .mutation, some 5, 3⟩

def opsDefMutEx : OpsDef :=
  { document := docPlainEx, opType := .mutation, name := "doMutation",
    behaviourTtl := some 5, validate := none, customHandler := none }

/-- Concrete instance: a mutation definition with a ttl hint survives
withCache untouched, and two identical direct mutation calls cost two
dispatches. -/
theorem withCache_skips_mutations_witness :
    (withCache (fun _ => 7) [nodeDefMutEx])[0]? = some nodeDefMutEx ∧
      (resolveD reqFnEx opsDefMutEx none []).dispatchCalls
        + (resolveD reqFnEx opsDefMutEx none []).dispatchCalls = 2 :=
  ⟨withCache_skips_mutations.1 Nat (fun _ => 7) [nodeDefMutEx] 0 nodeDefMutEx rfl
      (by simp [nodeDefMutEx]),
    withCache_skips_mutations.2 reqFnEx opsDefMutEx none [] rfl rfl rfl⟩

/-! ## The GET-request parsing adapter -/

structure ParsedReq : Type where
  operation : Option String
  vars : Option J

/-- fromGetRequest: the operation name is query parameter `op`, falling back
to `operation` then `query` (JS `??` chaining); the variables are the
JSON-decoded `v` parameter (alias `variables`), absent when the parameter is
missing or empty (JS truthiness); a malformed JSON string makes JSON.parse
throw, modelled as the error case. -/
def fromGetRequest (q : List (String × String)) : Except String ParsedReq :=
  let operation := (aget "op" q).orElse fun _ =>
    (aget "operation" q).orElse fun _ => aget "query" q
  match (aget "v" q).orElse fun _ => aget "variables" q with
  | none => .ok ⟨operation, none⟩
  | some s =>
    if s = "" then .ok ⟨operation, none⟩
    else
      match jparse s with
      | some jv => .ok ⟨operation, some jv⟩
      | none => .error "invalid JSON in variables"

/-- Claim C9: GET parsing takes the operation name from `op` with aliases
`operation` then `query` (in that precedence), and the variables from
JSON-decoding `v` (alias `variables`).  In particular the spec's scenario —
the decoded query string `op=getX&v=\x7b"id":1\x7d` — yields operation getX
and variables `\x7b id: 1 \x7d`; the remaining conjuncts exercise each
alias and the precedence order. -/
theorem fromGetRequest_spec :
    fromGetRequest [("op", "getX"), ("v", "\x7b\"id\":1\x7d")]
        = .ok ⟨some "getX", some (J.obj (.cons "id" (J.num 1) .nil))⟩ ∧
      fromGetRequest [("operation", "getY")] = .ok ⟨some "getY", none⟩ ∧
      fromGetRequest [("query", "getZ")] = .ok ⟨some "getZ", none⟩ ∧
      fromGetRequest [("op", "a"), ("operation", "b"), ("query", "c")]
        = .ok ⟨some "a", none⟩ ∧
      fromGetRequest [("op", "getX"), ("variables", "\x7b\"id\":2\x7d")]
        = .ok ⟨some "getX", some (J.obj (.cons "id" (J.num 2) .nil))⟩ := by
  refine ⟨rfl, rfl, rfl, rfl, rfl⟩

/-- A member of an association list with unique keys is what lookup returns. -/
theorem aget_of_mem {α : Type} {l : List (String × α)} {p : String × α}
    (hm : p ∈ l) (nd : NodupKeys l) : aget p.1 l = some p.2 := by
  induction l with
  | nil => cases hm
  | cons q r ih =>
    rcases List.mem_cons.mp hm with h | h
    · simp [aget, h]
    · have hq : q.1 ≠ p.1 := by
        intro hh
        exact (List.nodup_cons.mp nd).1 (by
          rw [hh]
          exact List.mem_map.mpr ⟨p, h, rfl⟩)
      simp [aget, hq]
      exact ih h (List.nodup_cons.mp nd).2

end GProxy
